import Mathlib

/-!
Verification development for the nanocode agent (`nanocode.py`): a shallow
embedding of the tool registry, the file tools, the execution sandbox, the
provider adapters and the agentic loop, together with theorems settling the
specification claims about them.

Python strings are embedded as `String` or `List Char`; machine-level
effects (the file system, the shell, regular-expression compilation) are
explicit state or oracles threaded through the definitions; fallible Python
code is embedded with `Except`/`Option` results.
-/

namespace Nanocode

/-! ### Python string primitives -/

/-- Whitespace characters recognised by Python `str.strip` / `str.rstrip`. -/
def isPySpace (c : Char) : Bool :=
  c = ' ' || c = '\t' || c = '\n' || c = '\r' || c = '\x0b' || c = '\x0c'

/-- Python `str.strip()` on character lists. -/
def pyStripChars (s : List Char) : List Char :=
  ((s.dropWhile isPySpace).reverse.dropWhile isPySpace).reverse

/-- Python `str.strip()`. -/
def pyStrip (s : String) : String := ⟨pyStripChars s.data⟩

/-- Python `str.rstrip()` (no argument: strips trailing whitespace). -/
def pyRstrip (s : String) : String := ⟨(s.data.reverse.dropWhile isPySpace).reverse⟩

/-- Python `str.rstrip(c)` for a single stripped character: removes every
trailing occurrence of `c`. -/
def pyRstripChar (c : Char) (s : String) : String :=
  ⟨(s.data.reverse.dropWhile (· = c)).reverse⟩

/-- Splitting a character list into the chunks produced by iterating over a
Python file object: each chunk ends with the newline that produced it, and a
final chunk without a newline is kept. -/
def splitKeepNL : List Char → List (List Char)
  | [] => []
  | c :: rest =>
    if c = '\n' then ['\n'] :: splitKeepNL rest
    else
      match splitKeepNL rest with
      | [] => [[c]]
      | l :: ls => (c :: l) :: ls

/-- Python `sep.join(xs)`. -/
def pyJoin (sep : String) : List String → String
  | [] => ""
  | [a] => a
  | a :: b :: rest => a ++ sep ++ pyJoin sep (b :: rest)

/-- Boolean prefix test on strings (Python `str.startswith`). -/
def pyStartsWith (pre s : String) : Bool := pre.data.isPrefixOf s.data

/-- Boolean suffix test on strings (Python `str.endswith`). -/
def pyEndsWith (suffix s : String) : Bool :=
  suffix.data.reverse.isPrefixOf s.data.reverse

/-- Right-aligned decimal formatting, as in the Python format spec `{n:4}`. -/
def padLeft (w : Nat) (s : String) : String :=
  (⟨List.replicate (w - s.length) ' '⟩ : String) ++ s

/-- Clamping of one Python slice index to `[0, len]`, with negative indices
counted from the end of the sequence. -/
def pyIndexClamp (len : Nat) (i : Int) : Nat :=
  if i < 0 then ((len : Int) + i).toNat else min i.toNat len

/-- Python slicing `l[start:stop]`. -/
def pySlice (l : List α) (start stop : Int) : List α :=
  (l.take (pyIndexClamp l.length stop)).drop (pyIndexClamp l.length start)

/-- Boolean prefix test on lists via decidable equality. -/
def listPrefixOf [DecidableEq α] : List α → List α → Bool
  | [], _ => true
  | _ :: _, [] => false
  | a :: l, b :: m => a = b && listPrefixOf l m

/-! ### Leftmost substring search (the engine behind Python `in`, `count`,
`replace` and the edit tool) -/

/-- Leftmost occurrence of `old` in `s`: `some (pre, suf)` means
`s = pre ++ old ++ suf` and the returned occurrence is the leftmost one. -/
def splitFirst (old : List Char) : List Char → Option (List Char × List Char)
  | [] => if old = [] then some ([], []) else none
  | c :: rest =>
    if old.isPrefixOf (c :: rest) then some ([], (c :: rest).drop old.length)
    else (splitFirst old rest).map fun pr => (c :: pr.1, pr.2)

/-- Python `old in text` (substring containment; always true for empty `old`). -/
def occursIn (old text : List Char) : Bool := (splitFirst old text).isSome

/-- Counting loop for non-overlapping occurrences; `fuel` bounds the
recursion and any `fuel > s.length` computes the true count. -/
def countFuel (old : List Char) : Nat → List Char → Nat
  | 0, _ => 0
  | fuel + 1, s =>
    match splitFirst old s with
    | none => 0
    | some (_, suf) => countFuel old fuel suf + 1

/-- Python `text.count(old)`: non-overlapping occurrences, scanning left to
right; for empty `old` Python returns `len(text) + 1`. -/
def pyCount (text old : List Char) : Nat :=
  if old = [] then text.length + 1 else countFuel old (text.length + 1) text

/-- Replacement loop behind `str.replace` for nonempty `old`. -/
def replaceFuel (old new : List Char) : Nat → List Char → List Char
  | 0, s => s
  | fuel + 1, s =>
    match splitFirst old s with
    | none => s
    | some (pre, suf) => pre ++ new ++ replaceFuel old new fuel suf

/-- Python `text.replace(old, new)` (all occurrences). -/
def pyReplaceAll (text old new : List Char) : List Char :=
  if old = [] then new ++ text.flatMap (fun c => c :: new)
  else replaceFuel old new (text.length + 1) text

/-- Python `text.replace(old, new, 1)` (at most one occurrence). -/
def pyReplaceOne (text old new : List Char) : List Char :=
  if old = [] then new ++ text
  else
    match splitFirst old text with
    | none => text
    | some (pre, suf) => pre ++ new ++ suf

/-- Segments of `text` between consecutive leftmost occurrences of `old`. -/
def splitFuel (old : List Char) : Nat → List Char → List (List Char)
  | 0, s => [s]
  | fuel + 1, s =>
    match splitFirst old s with
    | none => [s]
    | some (pre, suf) => pre :: splitFuel old fuel suf

/-! ### The edit tool core (source: `edit`, nanocode.py lines 85-98) -/

/-- Core of the `edit` tool on the file text: returns the result message and
the text the file holds afterwards (unchanged on the error paths, where the
source returns before writing). -/
def edit (text old new : List Char) (all : Bool) : String × List Char :=
  if occursIn old text = false then ("error: old_string not found", text)
  else if all = false ∧ pyCount text old > 1 then
    ("error: old_string appears " ++ toString (pyCount text old) ++
      " times, must be unique (use all=true)", text)
  else
    ("ok", if all then pyReplaceAll text old new else pyReplaceOne text old new)

/-! ### Canonical data model: content blocks and turns -/

/-- Python values appearing inside a tool-call argument map. -/
inductive PyVal
  | str (s : String)
  | num (n : Int)
  | bool (b : Bool)
  deriving DecidableEq

/-- A tool-call argument map (a JSON object of primitive values). -/
abbrev ArgMap := List (String × PyVal)

/-- Canonical content blocks: text, a tool-use request, a tool result. -/
inductive Block
  | text (t : String)
  | toolUse (id name : String) (input : ArgMap)
  | toolResult (toolUseId : String) (content : String)
  deriving DecidableEq

/-- Turn roles. -/
inductive Role
  | user
  | assistant
  deriving DecidableEq

/-- Turn content: a plain string (typed user input) or a block list
(assistant replies and synthesized tool-result turns). -/
inductive MsgContent
  | str (s : String)
  | blocks (bs : List Block)
  deriving DecidableEq

/-- One turn of the conversation. -/
structure Msg where
  role : Role
  content : MsgContent
  deriving DecidableEq

/-! ### Execution environment: file system, shell oracle, regex oracle -/

/-- One file of the modelled file system. An unreadable entry models a path
that `open` or the read loop fails on (directory, permissions, decoding). -/
structure FSEntry where
  path : String
  content : String
  mtime : Nat
  readable : Bool
  deriving DecidableEq

/-- Observable behaviour of one shell command: the chunks successive
`readline` calls return before end-of-stream, and the wall-clock time at
which the process exits (`none` when it never exits). -/
structure CmdBehavior where
  lines : List String
  exitTime : Option Nat
  deriving DecidableEq

/-- The ambient machine state: files, a shell oracle giving each command
line its behaviour, a regex oracle mirroring `re.compile` (which either
raises on a bad pattern or yields a search predicate), and a clock. -/
structure Env where
  fs : List FSEntry
  shell : String → CmdBehavior
  regex : String → Except String (String → Bool)
  now : Nat

/-- Python truthiness of an optional argument value (`args.get(k)`). -/
def pyTruthy : Option PyVal → Bool
  | none => false
  | some (PyVal.str s) => s ≠ ""
  | some (PyVal.num n) => n ≠ 0
  | some (PyVal.bool b) => b

/-- `args[k]` expected to be a string: raises KeyError when absent. -/
def getStr (args : ArgMap) (k : String) : Except String String :=
  match args.lookup k with
  | none => .error ("KeyError: " ++ k)
  | some (PyVal.str s) => .ok s
  | some _ => .error ("TypeError: expected str for " ++ k)

/-- `args.get(k, d)` used as a string. -/
def getStrD (args : ArgMap) (k : String) (d : String) : Except String String :=
  match args.lookup k with
  | none => .ok d
  | some (PyVal.str s) => .ok s
  | some _ => .error ("TypeError: expected str for " ++ k)

/-- `args.get(k, d)` used as a slice index. -/
def getIntD (args : ArgMap) (k : String) (d : Int) : Except String Int :=
  match args.lookup k with
  | none => .ok d
  | some (PyVal.num n) => .ok n
  | some _ => .error "TypeError: slice indices must be integers"

/-- Lookup of a path in the modelled file system. -/
def fsLookup (fs : List FSEntry) (path : String) : Option FSEntry :=
  fs.find? (fun e => e.path == path)

/-- `open(path).read()`: missing or unreadable paths raise. -/
def openRead (env : Env) (path : String) : Except String String :=
  match fsLookup env.fs path with
  | none => .error ("FileNotFoundError: " ++ path)
  | some e =>
    if e.readable then .ok e.content else .error ("PermissionError: " ++ path)

/-- `open(path, w).write(content)`: replaces or creates the entry. -/
def fsWrite (env : Env) (path content : String) : Env :=
  { env with fs :=
      { path := path, content := content, mtime := env.now, readable := true } ::
        env.fs.filter (fun e => e.path != path) }

/-! ### Tool implementations (nanocode.py lines 71-144) -/

/-- The `read` tool: numbered lines of a slice of the file. -/
def read_body (env : Env) (args : ArgMap) : Except String (String × Env) := do
  let path ← getStr args "path"
  let content ← openRead env path
  let lines := splitKeepNL content.data
  let offset ← getIntD args "offset" 0
  let limit ← getIntD args "limit" (lines.length : Int)
  let selected := pySlice lines offset (offset + limit)
  .ok (String.join (selected.enum.map fun p =>
    padLeft 4 (toString (offset + (p.1 : Int) + 1)) ++ "| " ++ (⟨p.2⟩ : String)),
    env)

/-- The `write` tool. -/
def write_body (env : Env) (args : ArgMap) : Except String (String × Env) := do
  let path ← getStr args "path"
  let content ← getStr args "content"
  .ok ("ok", fsWrite env path content)

/-- The `edit` tool wrapper: reads the file, runs the core, and writes only
on the success path (the source returns before writing on either error). -/
def edit_body (env : Env) (args : ArgMap) : Except String (String × Env) := do
  let path ← getStr args "path"
  let content ← openRead env path
  let old ← getStr args "old"
  let new ← getStr args "new"
  let all := pyTruthy (args.lookup "all")
  let r := edit content.data old.data new.data all
  if r.1 = "ok" then .ok ("ok", fsWrite env path (⟨r.2⟩ : String))
  else .ok (r.1, env)

/-- Glob pattern matching as used with `recursive=True`: a double star
matches any characters including separators, a single star and the question
mark match within one path segment. Character classes are not modelled (no
registered pattern uses them). -/
def globMatch : List Char → List Char → Bool
  | [], [] => true
  | [], _ :: _ => false
  | '*' :: '*' :: ps, s =>
    globMatch ps s ||
      (match s with
       | [] => false
       | _ :: s' => globMatch ('*' :: '*' :: ps) s')
  | '*' :: ps, s =>
    globMatch ps s ||
      (match s with
       | [] => false
       | c :: s' => c ≠ '/' && globMatch ('*' :: ps) s')
  | '?' :: _, [] => false
  | '?' :: ps, c :: s => c ≠ '/' && globMatch ps s
  | _ :: _, [] => false
  | p :: ps, c :: s => p = c && globMatch ps s
termination_by ps s => (ps.length, s.length)

/-- Stable insertion for the descending mtime sort. -/
def insertByKeyDesc (key : α → Nat) (x : α) : List α → List α
  | [] => [x]
  | y :: ys => if key y < key x then x :: y :: ys else y :: insertByKeyDesc key x ys

/-- `sorted(files, key=mtime, reverse=True)`. -/
def sortByKeyDesc (key : α → Nat) : List α → List α
  | [] => []
  | x :: xs => insertByKeyDesc key x (sortByKeyDesc key xs)

/-- The `glob` tool: matching paths sorted by mtime, newest first. -/
def glob_body (env : Env) (args : ArgMap) : Except String (String × Env) := do
  let pathArg ← getStrD args "path" "."
  let pat ← getStr args "pat"
  let pattern : String := ⟨pyReplaceAll (pathArg ++ "/" ++ pat).data "//".data "/".data⟩
  let found := (sortByKeyDesc (fun e => e.mtime)
    (env.fs.filter fun e => globMatch pattern.data e.path.data)).map (fun e => e.path)
  let j := pyJoin "\n" found
  .ok (if j = "" then "none" else j, env)

/-- One candidate file for the grep scan: the lines obtained before any
failure (empty when the open itself fails) and whether a swallowed exception
ended the iteration. -/
structure GrepFile where
  path : String
  lines : List String
  aborted : Bool
  deriving DecidableEq

/-- Hits contributed by one file, formatted `path:line:text` with the line
number starting at 1 and the text right-stripped. -/
def grepHitsFile (search : String → Bool) (f : GrepFile) : List String :=
  (f.lines.enumFrom 1).filterMap fun p =>
    if search p.2 then some (f.path ++ ":" ++ toString p.1 ++ ":" ++ pyRstrip p.2)
    else none

/-- All hits over the scanned files, in scan order. -/
def grepHits (search : String → Bool) (files : List GrepFile) : List String :=
  (files.map (grepHitsFile search)).flatten

/-- The `grep` tool result: the first 50 hits joined by newlines, or the
literal `none` when the join is empty (the Python or-fallback). -/
def grep (search : String → Bool) (files : List GrepFile) : String :=
  if pyJoin "\n" ((grepHits search files).take 50) = "" then "none"
  else pyJoin "\n" ((grepHits search files).take 50)

/-- The files the grep scan visits: every entry under the directory
(recursive glob); unreadable entries contribute no lines. -/
def grepFilesOf (env : Env) (dir : String) : List GrepFile :=
  (env.fs.filter fun e => globMatch (dir ++ "/**").data e.path.data).map fun e =>
    { path := e.path,
      lines :=
        if e.readable then (splitKeepNL e.content.data).map (fun l => (⟨l⟩ : String))
        else [],
      aborted := !e.readable }

/-- The `grep` tool: compile the pattern (which may raise), then scan. -/
def grep_body (env : Env) (args : ArgMap) : Except String (String × Env) := do
  let pat ← getStr args "pat"
  let search ← env.regex pat
  let dir ← getStrD args "path" "."
  .ok (grep search (grepFilesOf env dir), env)

/-- Outcome of one `bash` run: when it finishes, the wall-clock finish time,
the result string, and whether the subprocess was killed. -/
structure BashRun where
  finishTime : Nat
  result : String
  killed : Bool
  deriving DecidableEq

/-- The readline loop of the `bash` tool. Each successive `readline` call
returns the next chunk; truthy (nonempty) chunks are accumulated. After the
last chunk, `readline` blocks until end-of-stream: if the process exits at
time `t` the loop sees the empty string with a finished poll and breaks at
`t`; if the process never exits, `readline` blocks (or the poll stays live)
forever and the loop never returns. -/
def readLoop (exitTime : Option Nat) : List String → List String → Option (List String × Nat)
  | acc, [] =>
    match exitTime with
    | none => none
    | some t => some (acc.reverse, t)
  | acc, l :: rest => readLoop exitTime (if l = "" then acc else l :: acc) rest

/-- The `bash` tool (source lines 125-144). The loop breaks only once the
subprocess has already exited, so the following `proc.wait(timeout=30)`
returns immediately: `subprocess.TimeoutExpired` is never raised, the
`proc.kill()` branch and the timed-out marker are unreachable, and the
result is always the stripped accumulated output (or the empty marker). -/
def bash (b : CmdBehavior) : Option BashRun :=
  (readLoop b.exitTime [] b.lines).map fun p =>
    { finishTime := p.2, killed := false,
      result :=
        (fun j => if j = "" then "(empty)" else j) (pyStrip (String.join p.1)) }

/-! ### Tool registry and dispatch (nanocode.py lines 149-187) -/

/-- Outcome of one registered executor call: `none` models a call that never
returns (a blocked readline); otherwise the Python call either raises or
returns a string, threading the environment. -/
abbrev ExecOutcome := Option (Except String (String × Env))

/-- A registered executor. -/
abbrev Executor := Env → ArgMap → ExecOutcome

/-- One registry entry: description, parameter schema, executor. -/
structure ToolDef where
  description : String
  params : List (String × String)
  exec : Executor

/-- Executors whose body always returns or raises. -/
def liftBody (f : Env → ArgMap → Except String (String × Env)) : Executor :=
  fun env args => some (f env args)

def readTool : ToolDef :=
  { description := "Read file with line numbers (file path, not directory)",
    params := [("path", "string"), ("offset", "number?"), ("limit", "number?")],
    exec := liftBody read_body }

def writeTool : ToolDef :=
  { description := "Write content to file",
    params := [("path", "string"), ("content", "string")],
    exec := liftBody write_body }

def editTool : ToolDef :=
  { description := "Replace old with new in file (old must be unique unless all=true)",
    params := [("path", "string"), ("old", "string"), ("new", "string"),
      ("all", "boolean?")],
    exec := liftBody edit_body }

def globTool : ToolDef :=
  { description := "Find files by pattern, sorted by mtime",
    params := [("pat", "string"), ("path", "string?")],
    exec := liftBody glob_body }

def grepTool : ToolDef :=
  { description := "Search files for regex pattern",
    params := [("pat", "string"), ("path", "string?")],
    exec := liftBody grep_body }

def bashTool : ToolDef :=
  { description := "Run shell command",
    params := [("cmd", "string")],
    exec := fun env args =>
      match getStr args "cmd" with
      | .error e => some (.error e)
      | .ok cmd =>
        match bash (env.shell cmd) with
        | none => none
        | some r => some (.ok (r.result, env)) }

/-- The registry (source `TOOLS` dict, in registration order). -/
def TOOLS : List (String × ToolDef) :=
  [("read", readTool), ("write", writeTool), ("edit", editTool),
   ("glob", globTool), ("grep", grepTool), ("bash", bashTool)]

/-- `TOOLS[name]` as an optional lookup. -/
def lookupTool (name : String) : Option ToolDef :=
  (TOOLS.find? (fun p => p.1 == name)).map (·.2)

/-- Registry dispatch (source `run_tool`): the whole call sits in a
try/except Exception, so an unregistered name (a KeyError) and any raising
executor both become a string starting with error-colon; only a call that
never returns is not converted. -/
def run_tool (env : Env) (name : String) (args : ArgMap) : Option (String × Env) :=
  match lookupTool name with
  | none => some ("error: " ++ ("KeyError: " ++ name), env)
  | some td =>
    match td.exec env args with
    | none => none
    | some (.error e) => some ("error: " ++ e, env)
    | some (.ok r) => some r

/-! ### Provider schema generation (source `make_schema`, lines 190-235) -/

/-- The three backends; the first uses the Style-B wire format, the other
two use Style-A. -/
inductive Provider
  | gemini
  | openrouter
  | anthropic
  deriving DecidableEq

/-- Type tag for one schema property: the declared base kind maps to
`integer` for `number` and is otherwise kept; for the gemini provider the
three kinds are overridden with upper-case tags. -/
def propType (provider : Provider) (base : String) : String :=
  let t := if base = "number" then "integer" else base
  if provider = Provider.gemini then
    if base = "string" then "STRING"
    else if base = "number" then "NUMBER"
    else if base = "boolean" then "BOOLEAN"
    else t
  else t

/-- One generated tool schema (the envelope key and object tag differ by
provider; both carry the same property and required lists). -/
structure ToolSchema where
  name : String
  description : String
  objectTag : String
  properties : List (String × String)
  required : List String
  deriving DecidableEq

/-- Schema generation over the registry: a trailing question mark marks an
optional parameter and is stripped before the type tag is computed. -/
def make_schema (provider : Provider) : List ToolSchema :=
  TOOLS.map fun p =>
    { name := p.1,
      description := p.2.description,
      objectTag := if provider = Provider.gemini then "OBJECT" else "object",
      properties := p.2.params.map fun q =>
        (q.1, propType provider (pyRstripChar '?' q.2)),
      required := (p.2.params.filter fun q => !(pyEndsWith "?" q.2)).map (·.1) }

/-! ### Style-B (gemini) response decoding (source `convert_gemini_response`,
lines 272-297) -/

/-- A wire functionCall part: both fields may be absent. -/
structure GFunctionCall where
  name : Option String
  args : Option ArgMap
  deriving DecidableEq

/-- A wire response part: a part with a text field decodes as text (taking
priority over a functionCall field); a part with neither is skipped. -/
structure GPart where
  text : Option String
  functionCall : Option GFunctionCall
  deriving DecidableEq

structure GContent where
  parts : Option (List GPart)
  deriving DecidableEq

structure GCandidate where
  content : Option GContent
  deriving DecidableEq

structure GeminiResponse where
  candidates : Option (List GCandidate)
  deriving DecidableEq

/-- Decoding of the part list. A functionCall part without a name raises a
KeyError (the source subscripts the name unconditionally when building the
block, after deriving the id with a defaulted get), which aborts the whole
decode. -/
def decodeParts : List GPart → Except String (List Block)
  | [] => .ok []
  | p :: rest =>
    match p.text with
    | some t => (decodeParts rest).map (fun bs => Block.text t :: bs)
    | none =>
      match p.functionCall with
      | some fc =>
        match fc.name with
        | none => .error "KeyError: name"
        | some n =>
          (decodeParts rest).map
            (fun bs => Block.toolUse (n ++ "_call") n (fc.args.getD []) :: bs)
      | none => decodeParts rest

/-- Style-B response decoding: an absent or empty candidate list yields a
single fixed no-response text block; a candidate without content yields a
single fixed empty-response text block; otherwise the parts are decoded. -/
def convert_gemini_response (r : GeminiResponse) : Except String (List Block) :=
  match r.candidates with
  | none => .ok [Block.text "No response from Gemini."]
  | some [] => .ok [Block.text "No response from Gemini."]
  | some (c :: _) =>
    match c.content with
    | none => .ok [Block.text "Empty response from Gemini."]
    | some content => decodeParts (content.parts.getD [])

/-! ### Style-B request encoding (source `convert_messages_to_gemini`,
lines 238-269) -/

/-- Wire parts of an encoded gemini content entry. -/
inductive GOutPart
  | textP (t : String)
  | funcCallP (name : String) (args : ArgMap)
  | funcRespP (name : String) (result : String)
  deriving DecidableEq

/-- One encoded gemini content entry. -/
structure GContentOut where
  role : String
  parts : List GOutPart
  deriving DecidableEq

/-- Translation of one canonical block into a wire part: tool results are
re-expressed as a synthetic function response named tool underscore result. -/
def blockToGeminiPart : Block → GOutPart
  | Block.text t => GOutPart.textP t
  | Block.toolUse _ name input => GOutPart.funcCallP name input
  | Block.toolResult _ content => GOutPart.funcRespP "tool_result" content

/-- Request encoding: string contents become one text part; block contents
are translated part by part, and an entry is appended only when its part
list is nonempty. The system prompt travels in a separate payload field and
is unused here, as in the source signature. -/
def convert_messages_to_gemini (messages : List Msg) (_sysPrompt : String) :
    List GContentOut :=
  messages.filterMap fun msg =>
    let role := if msg.role = Role.user then "user" else "model"
    match msg.content with
    | MsgContent.str s => some { role := role, parts := [GOutPart.textP s] }
    | MsgContent.blocks items =>
      let parts := items.map blockToGeminiPart
      if parts.isEmpty then none else some { role := role, parts := parts }

/-! ### The agentic loop (source `main`, lines 352-427) -/

/-- Outcome of a straight-line piece of the loop: it can block forever, let
an exception escape to the REPL handler, or produce a value. -/
inductive StepOut (α : Type)
  | hang
  | raise (e : String)
  | ok (a : α)

/-- The per-response dispatch loop over the returned blocks (source lines
386-413): text blocks are printed; a tool-use block first renders an
argument preview subscripting the first argument value (an IndexError when
the argument map is empty, aborting the iteration before anything is
appended), then dispatches through the registry and collects a tool-result
block carrying the same id; tool-result blocks inside an assistant reply are
ignored by the dispatch. Returns the collected results in order. -/
def loopGo : Env → List Block → List Block → StepOut (List Block × Env)
  | env, acc, [] => StepOut.ok (acc.reverse, env)
  | env, acc, Block.text _ :: rest => loopGo env acc rest
  | env, acc, Block.toolResult _ _ :: rest => loopGo env acc rest
  | env, acc, Block.toolUse id name input :: rest =>
    if input = [] then StepOut.raise "IndexError: list index out of range"
    else
      match run_tool env name input with
      | none => StepOut.hang
      | some (res, env') => loopGo env' (Block.toolResult id res :: acc) rest

/-- Outcome of the inner agentic loop for one user input. -/
inductive LoopOut
  | hang
  | outOfScript (ms : List Msg) (env : Env)
  | failed (e : String) (ms : List Msg) (env : Env)
  | done (ms : List Msg) (env : Env)

/-- The inner agentic loop (source lines 381-419), driven by a script of
transport outcomes, one per api call: a transport error or an exception in
the dispatch loop escapes with the conversation exactly as it was before
that call; otherwise the assistant turn is appended, and either the loop
completes (no tool results) or the synthesized results turn is appended and
the loop re-queries. -/
def agenticLoop : Env → List Msg → List (Except String (List Block)) → LoopOut
  | env, ms, [] => LoopOut.outOfScript ms env
  | env, ms, .error e :: _ => LoopOut.failed e ms env
  | env, ms, .ok blocks :: rest =>
    match loopGo env [] blocks with
    | StepOut.hang => LoopOut.hang
    | StepOut.raise e => LoopOut.failed e ms env
    | StepOut.ok (results, env') =>
      let ms1 := ms ++ [⟨Role.assistant, MsgContent.blocks blocks⟩]
      if results.isEmpty then LoopOut.done ms1 env'
      else agenticLoop env' (ms1 ++ [⟨Role.user, MsgContent.blocks results⟩]) rest

/-- One REPL round for a nonempty non-command input: the input is appended
as a user turn and the inner loop runs; an escaped exception is printed as a
top-level error notice and the REPL returns to awaiting input with the
conversation as the loop left it. -/
def replTurn (env : Env) (ms : List Msg) (input : String)
    (script : List (Except String (List Block))) :
    Option (List Msg × Option String) :=
  match agenticLoop env (ms ++ [⟨Role.user, MsgContent.str input⟩]) script with
  | LoopOut.hang => none
  | LoopOut.outOfScript _ _ => none
  | LoopOut.failed e ms' _ => some (ms', some ("Error: " ++ e))
  | LoopOut.done ms' _ => some (ms', none)

/-- Where a response block list comes from: the Style-B decoder, or a
Style-A response whose content list is passed through verbatim. -/
inductive RespSource
  | gemini (r : GeminiResponse)
  | styleA (bs : List Block)

/-- Style-A wire conformance for a response content list: the messages api
returns only text and tool-use blocks, the latter with nonempty ids. -/
def wfStyleA (bs : List Block) : Bool :=
  bs.all fun b =>
    match b with
    | Block.text _ => true
    | Block.toolUse id _ _ => id ≠ ""
    | Block.toolResult _ _ => false

/-- The block list a source actually delivers to the loop. -/
def sourceOk : RespSource → List Block → Prop
  | RespSource.gemini r, bs => convert_gemini_response r = .ok bs
  | RespSource.styleA bs0, bs => bs0 = bs ∧ wfStyleA bs0 = true

/-- Conversations the loop can produce: starting empty (also after a clear),
appending a nonempty typed user turn, or appending one exchange: the
assistant turn plus, when the dispatch collected results, the synthesized
results turn. -/
inductive Reachable : List Msg → Prop
  | nil : Reachable []
  | user {ms : List Msg} (s : String) :
      Reachable ms → s ≠ "" → Reachable (ms ++ [⟨Role.user, MsgContent.str s⟩])
  | exchange {ms : List Msg} (env env' : Env) (src : RespSource)
      (blocks results : List Block) :
      Reachable ms → sourceOk src blocks →
      loopGo env [] blocks = StepOut.ok (results, env') →
      Reachable (ms ++ [⟨Role.assistant, MsgContent.blocks blocks⟩] ++
        (if results.isEmpty then [] else [⟨Role.user, MsgContent.blocks results⟩]))

/-- Tool-use ids occurring in a block list. -/
def blocksToolUseIds (bs : List Block) : List String :=
  bs.filterMap fun b =>
    match b with
    | Block.toolUse id _ _ => some id
    | _ => none

def isToolResultB : Block → Bool
  | Block.toolResult _ _ => true
  | _ => false

/-- Whether a turn carries any tool-result block. -/
def carriesResult (m : Msg) : Bool :=
  match m.content with
  | MsgContent.str _ => false
  | MsgContent.blocks bs => bs.any isToolResultB

/-- The tool-use ids referenced by the tool results of a turn. -/
def msgResultIds (m : Msg) : List String :=
  match m.content with
  | MsgContent.str _ => []
  | MsgContent.blocks bs =>
    bs.filterMap fun b =>
      match b with
      | Block.toolResult id _ => some id
      | _ => none

/-- The tool-use ids emitted by a turn. -/
def msgToolUseIds (m : Msg) : List String :=
  match m.content with
  | MsgContent.str _ => []
  | MsgContent.blocks bs => blocksToolUseIds bs

/-- Whether a turn was synthesized by the loop (its content is a block
list; typed user turns carry plain strings). -/
def isBlocksContent (m : Msg) : Bool :=
  match m.content with
  | MsgContent.str _ => false
  | MsgContent.blocks _ => true

/-- A result-carrying turn is well placed: role user, synthesized content,
and every referenced id among the tool-use ids of the preceding turn, which
is an assistant turn. -/
def resultTurnOK (prev : Option Msg) (m : Msg) : Bool :=
  (m.role = Role.user) && isBlocksContent m &&
    (match prev with
     | some p =>
       (p.role = Role.assistant) &&
         (msgResultIds m).all (fun i => (msgToolUseIds p).contains i)
     | none => false)

/-- The conversation invariant, walked left to right with the previous turn
in hand: every turn carrying tool results is well placed. -/
def convInvB : Option Msg → List Msg → Bool
  | _, [] => true
  | prev, m :: rest =>
    (!(carriesResult m) || resultTurnOK prev m) && convInvB (some m) rest

/-- The last element of a walked segment, falling back to the prior context. -/
def lastOpt : List Msg → Option Msg
  | [] => none
  | [m] => some m
  | _ :: m :: rest => lastOpt (m :: rest)

def ctxAfter (p : Option Msg) (xs : List Msg) : Option Msg :=
  match lastOpt xs with
  | none => p
  | some m => some m

/-- A segment made of completed tool exchanges: pairs of an assistant turn
followed by a nonempty synthesized results turn. -/
def isToolExchanges : List Msg → Bool
  | [] => true
  | ⟨Role.assistant, MsgContent.blocks _⟩ :: ⟨Role.user, MsgContent.blocks rs⟩ :: rest =>
    !rs.isEmpty && isToolExchanges rest
  | _ => false

/-- Nonemptiness of a turn content. -/
def contentNonemptyB (m : Msg) : Bool :=
  match m.content with
  | MsgContent.str s => s ≠ ""
  | MsgContent.blocks bs => !bs.isEmpty

/-- A concrete quiescent environment for witnesses. -/
def cEnv : Env :=
  { fs := [],
    shell := fun _ => { lines := [], exitTime := some 0 },
    regex := fun _ => .ok fun _ => false,
    now := 0 }

/-- Upper-casing of a token, character by character (the recasing notion the
specification refers to when relating the two schema dialects). -/
def tokenUpper (s : String) : String := ⟨s.data.map Char.toUpper⟩

/-- Lower-casing of a token, character by character. -/
def tokenLower (s : String) : String := ⟨s.data.map Char.toLower⟩

/-! ## Theorems -/

/-! ### Substring machinery -/

theorem splitFirst_sound {old : List Char} :
    ∀ {s pre suf : List Char}, splitFirst old s = some (pre, suf) →
      s = pre ++ old ++ suf := by
  intro s
  induction s with
  | nil =>
    intro pre suf h
    by_cases hold : old = []
    · simp only [splitFirst, if_pos hold, Option.some.injEq, Prod.mk.injEq] at h
      obtain ⟨h1, h2⟩ := h
      subst h1; subst h2
      simp [hold]
    · simp [splitFirst, hold] at h
  | cons c rest ih =>
    intro pre suf h
    simp only [splitFirst] at h
    by_cases hpre : old.isPrefixOf (c :: rest)
    · rw [if_pos hpre] at h
      simp only [Option.some.injEq, Prod.mk.injEq] at h
      obtain ⟨h1, h2⟩ := h
      obtain ⟨t, ht⟩ := List.isPrefixOf_iff_prefix.mp hpre
      subst h1; subst h2
      rw [← ht, List.drop_left]
      simp
    · rw [if_neg hpre] at h
      cases hrec : splitFirst old rest with
      | none => rw [hrec] at h; simp at h
      | some pr =>
        rw [hrec] at h
        obtain ⟨p1, p2⟩ := pr
        simp only [Option.map_some', Option.some.injEq, Prod.mk.injEq] at h
        obtain ⟨h1, h2⟩ := h
        subst h1; subst h2
        simp [ih hrec]

theorem splitFirst_suf_lt {old s pre suf : List Char}
    (h : splitFirst old s = some (pre, suf)) (hold : old ≠ []) :
    suf.length < s.length := by
  have hs := splitFirst_sound h
  have : s.length = pre.length + old.length + suf.length := by
    simp [hs, List.length_append]; omega
  have hol : 0 < old.length := List.length_pos.mpr hold
  omega

theorem splitFirst_nil_left : ∀ s : List Char, splitFirst [] s = some ([], s) := by
  intro s
  cases s with
  | nil => simp [splitFirst]
  | cons c rest => simp [splitFirst, List.isPrefixOf]

theorem countFuel_stable {old : List Char} (hold : old ≠ []) :
    ∀ f₁ f₂ s, s.length < f₁ → s.length < f₂ →
      countFuel old f₁ s = countFuel old f₂ s := by
  intro f₁
  induction f₁ with
  | zero => intro f₂ s h1; omega
  | succ f ih =>
    intro f₂ s h1 h2
    obtain ⟨g, rfl⟩ : ∃ g, f₂ = g + 1 := ⟨f₂ - 1, by omega⟩
    cases hsf : splitFirst old s with
    | none => simp [countFuel, hsf]
    | some pr =>
      obtain ⟨pre, suf⟩ := pr
      have hlt := splitFirst_suf_lt hsf hold
      simp only [countFuel, hsf]
      rw [ih g suf (by omega) (by omega)]

theorem splitFuel_ne_nil (old : List Char) (fuel : Nat) (s : List Char) :
    splitFuel old fuel s ≠ [] := by
  cases fuel with
  | zero => simp [splitFuel]
  | succ f =>
    simp only [splitFuel]
    cases splitFirst old s with
    | none => simp
    | some pr => simp

theorem intercalate_cons₂ (sep a b : List Char) (l : List (List Char)) :
    List.intercalate sep (a :: b :: l) = a ++ sep ++ List.intercalate sep (b :: l) := by
  simp [List.intercalate, List.intersperse, List.flatten, List.append_assoc]

theorem intercalate_single (sep a : List Char) :
    List.intercalate sep [a] = a := by
  simp [List.intercalate, List.intersperse]

/-- Core decomposition: for nonempty `old` and enough fuel, the segment list
produced by `splitFuel` reassembles `text` around `old`, reassembles the
replacement result around `new`, and has one more segment than the count of
occurrences. -/
theorem splitFuel_spec {old : List Char} (hold : old ≠ []) (new : List Char) :
    ∀ fuel s, s.length < fuel →
      List.intercalate old (splitFuel old fuel s) = s ∧
      List.intercalate new (splitFuel old fuel s) = replaceFuel old new fuel s ∧
      (splitFuel old fuel s).length = countFuel old fuel s + 1 := by
  intro fuel
  induction fuel with
  | zero => intro s h; omega
  | succ f ih =>
    intro s hs
    cases hsf : splitFirst old s with
    | none => simp [splitFuel, replaceFuel, countFuel, hsf, intercalate_single]
    | some pr =>
      obtain ⟨pre, suf⟩ := pr
      have hdecomp := splitFirst_sound hsf
      have hlt := splitFirst_suf_lt hsf hold
      have ihs := ih suf (by omega)
      obtain ⟨ih1, ih2, ih3⟩ := ihs
      simp only [splitFuel, replaceFuel, countFuel, hsf]
      cases htl : splitFuel old f suf with
      | nil => exact absurd htl (splitFuel_ne_nil old f suf)
      | cons b l =>
        rw [htl] at ih1 ih2 ih3
        refine ⟨?_, ?_, ?_⟩
        · rw [intercalate_cons₂, ih1, hdecomp]
        · rw [intercalate_cons₂, ih2]
        · simp [ih3]

theorem countFuel_eq_zero {old : List Char} {fuel : Nat} {s : List Char}
    (hfuel : 0 < fuel) (h : countFuel old fuel s = 0) :
    splitFirst old s = none := by
  obtain ⟨g, rfl⟩ : ∃ g, fuel = g + 1 := ⟨fuel - 1, by omega⟩
  cases hsf : splitFirst old s with
  | none => rfl
  | some pr =>
    obtain ⟨pre, suf⟩ := pr
    simp [countFuel, hsf] at h

theorem occursIn_false_count_zero {old text : List Char}
    (h : occursIn old text = false) : pyCount text old = 0 := by
  have hold : old ≠ [] := by
    intro he
    rw [he] at h
    simp [occursIn, splitFirst_nil_left] at h
  simp only [occursIn, Option.isSome] at h
  cases hsf : splitFirst old text with
  | none => simp [pyCount, hold, countFuel, hsf]
  | some pr => rw [hsf] at h; simp at h

theorem replaceFuel_of_none {old s : List Char} (h : splitFirst old s = none)
    (new : List Char) (fuel : Nat) : replaceFuel old new fuel s = s := by
  cases fuel with
  | zero => rfl
  | succ f => simp [replaceFuel, h]

theorem intercalate_cons_of_ne_nil (sep a : List Char) {l : List (List Char)}
    (h : l ≠ []) :
    List.intercalate sep (a :: l) = a ++ sep ++ List.intercalate sep l := by
  cases l with
  | nil => exact absurd rfl h
  | cons b m => exact intercalate_cons₂ sep a b m

theorem intercalate_empty_old : ∀ text : List Char,
    List.intercalate ([] : List Char)
      (([] : List Char) :: ((text.map fun c => [c]) ++ [[]])) = text := by
  intro text
  induction text with
  | nil => simp [List.intercalate, List.intersperse]
  | cons c rest ih =>
    simp only [List.map_cons, List.cons_append]
    rw [intercalate_cons₂]
    rw [intercalate_cons_of_ne_nil _ [c] (by simp)]
    rw [intercalate_cons_of_ne_nil _ ([] : List Char) (by simp)] at ih
    simp only [List.nil_append, List.append_nil] at ih ⊢
    rw [ih]
    simp

theorem intercalate_empty_pattern (new : List Char) : ∀ text : List Char,
    List.intercalate new (([] : List Char) :: ((text.map fun c => [c]) ++ [[]])) =
      new ++ text.flatMap (fun c => c :: new) := by
  intro text
  induction text with
  | nil => simp [List.intercalate, List.intersperse]
  | cons c rest ih =>
    simp only [List.map_cons, List.cons_append]
    rw [intercalate_cons₂]
    rw [intercalate_cons_of_ne_nil new [c] (by simp)]
    rw [intercalate_cons_of_ne_nil new ([] : List Char) (by simp)] at ih
    simp only [List.nil_append] at ih ⊢
    have hmid := List.append_cancel_left ih
    rw [hmid]
    simp [List.append_assoc]

/-! ### Claim C3 -/

/-- Claim C3: if `old` does not occur, the edit tool returns the
distinguishable not-found error and the text is unchanged; if `old` occurs
two or more times and the all flag is not set, the result reports the exact
occurrence count as an error and the text is unchanged; if `old` occurs
exactly once, that one occurrence is replaced and success is reported; if
the all flag is set, every occurrence is replaced (the text splits into
segments around the occurrences of `old`, and the result is the same
segments joined with `new`). -/
theorem edit_matches_claim (text old new : List Char) (all : Bool) :
    (occursIn old text = false →
      edit text old new all = ("error: old_string not found", text)) ∧
    (2 ≤ pyCount text old → all = false →
      edit text old new all =
        ("error: old_string appears " ++ toString (pyCount text old) ++
          " times, must be unique (use all=true)", text)) ∧
    (pyCount text old = 1 →
      ∃ pre suf, text = pre ++ old ++ suf ∧
        edit text old new all = ("ok", pre ++ new ++ suf)) ∧
    (occursIn old text = true → all = true →
      ∃ segs, segs ≠ [] ∧ segs.length = pyCount text old + 1 ∧
        text = List.intercalate old segs ∧
        edit text old new all = ("ok", List.intercalate new segs)) := by
  refine ⟨?_, ?_, ?_, ?_⟩
  · intro h
    simp [edit, h]
  · intro h2 hall
    subst hall
    have hocc : occursIn old text = true := by
      cases h' : occursIn old text
      · have := occursIn_false_count_zero h'; omega
      · rfl
    have hgt : 1 < pyCount text old := by omega
    simp [edit, hocc, hgt]
  · intro h1
    by_cases hold : old = []
    · subst hold
      have htext : text = [] := by
        have h' : text.length + 1 = 1 := by simpa [pyCount] using h1
        exact List.length_eq_zero.mp (by omega)
      subst htext
      refine ⟨[], [], by simp, ?_⟩
      cases all <;>
        simp [edit, occursIn, splitFirst, pyCount, countFuel, pyReplaceAll,
          pyReplaceOne]
    · have h2 := h1
      simp only [pyCount, if_neg hold] at h2
      cases hsf : splitFirst old text with
      | none => simp [countFuel, hsf] at h2
      | some pr =>
        obtain ⟨pre, suf⟩ := pr
        simp [countFuel, hsf] at h2
        have hdecomp := splitFirst_sound hsf
        have hol : 0 < old.length := List.length_pos.mpr hold
        have hlen : 0 < text.length := by
          rw [hdecomp]; simp only [List.length_append]; omega
        have hnone : splitFirst old suf = none := countFuel_eq_zero hlen h2
        have hocc : occursIn old text = true := by simp [occursIn, hsf]
        refine ⟨pre, suf, hdecomp, ?_⟩
        cases all
        · simp [edit, hocc, h1, pyReplaceOne, hold, hsf]
        · simp [edit, hocc, h1, pyReplaceAll, hold, replaceFuel, hsf,
            replaceFuel_of_none hnone]
  · intro hocc hall
    subst hall
    by_cases hold : old = []
    · subst hold
      refine ⟨([] : List Char) :: ((text.map fun c => [c]) ++ [[]]),
        by simp, ?_, ?_, ?_⟩
      · simp [pyCount, List.length_append]
      · exact (intercalate_empty_old text).symm
      · have hocc' : occursIn [] text = true := by
          simp [occursIn, splitFirst_nil_left]
        simp [edit, hocc', pyReplaceAll, intercalate_empty_pattern]
    · obtain ⟨h1', h2', h3'⟩ :=
        splitFuel_spec hold new (text.length + 1) text (Nat.lt_succ_self _)
      refine ⟨splitFuel old (text.length + 1) text,
        splitFuel_ne_nil _ _ _, ?_, h1'.symm, ?_⟩
      · rw [h3']; simp [pyCount, hold]
      · simp [edit, hocc, pyReplaceAll, hold, ← h2']

/-- Witness for C3 at a concrete input: two occurrences without the all flag
report the count and leave the text unchanged. -/
theorem edit_matches_claim_witness :
    edit "aa".data "a".data "X".data false =
      ("error: old_string appears " ++ toString (pyCount "aa".data "a".data) ++
        " times, must be unique (use all=true)", "aa".data) :=
  (edit_matches_claim "aa".data "a".data "X".data false).2.1 (by decide) rfl

/-! ### Claim C1 -/

theorem pyStartsWith_append (p e : String) : pyStartsWith p (p ++ e) = true := by
  unfold pyStartsWith
  rw [String.data_append]
  exact List.isPrefixOf_iff_prefix.mpr ⟨e.data, rfl⟩

/-- Claim C1: registry dispatch never raises to its caller. For every tool
name and argument map, an unregistered name (the KeyError raised by the
registry subscript) and a raising executor are both converted into a result
string beginning with error-colon followed by the failure description; and
that very string is what the dispatch loop wraps into the synthesized
ToolResult content. -/
theorem run_tool_matches_claim (env : Env) (name : String) (args : ArgMap) :
    (lookupTool name = none →
      run_tool env name args = some ("error: " ++ ("KeyError: " ++ name), env) ∧
      pyStartsWith "error: " ("error: " ++ ("KeyError: " ++ name)) = true) ∧
    (∀ td e, lookupTool name = some td → td.exec env args = some (.error e) →
      run_tool env name args = some ("error: " ++ e, env) ∧
      pyStartsWith "error: " ("error: " ++ e) = true) ∧
    (∀ id res env', run_tool env name args = some (res, env') → args ≠ [] →
      loopGo env [] [Block.toolUse id name args] =
        StepOut.ok ([Block.toolResult id res], env')) := by
  refine ⟨?_, ?_, ?_⟩
  · intro h
    exact ⟨by simp [run_tool, h], pyStartsWith_append _ _⟩
  · intro td e h1 h2
    exact ⟨by simp [run_tool, h1, h2], pyStartsWith_append _ _⟩
  · intro id res env' h hne
    simp [loopGo, hne, h]

/-- Witness for C1: dispatching the edit tool with an empty argument map
raises a KeyError inside the executor, which dispatch converts. -/
theorem run_tool_matches_claim_witness :
    run_tool cEnv "edit" [] = some ("error: " ++ ("KeyError: " ++ "path"), cEnv) :=
  ((run_tool_matches_claim cEnv "edit" []).2.1 editTool ("KeyError: " ++ "path")
    rfl rfl).1

/-! ### Claim C2 -/

/-- Claim C2 is refuted by the code (the claim states the intended
behaviour, visible in the dead kill-and-marker branch of the source): the
readline loop breaks only once the subprocess has already exited, so the
thirty-second wait is reached with the process gone, the timeout exception
never fires, and the subprocess is never killed. A command exiting at sixty
seconds with no output runs to completion and returns the empty marker
unharmed; a command that never exits blocks the tool forever. -/
theorem bash_timeout_never_fires :
    bash { lines := [], exitTime := some 60 } =
      some { finishTime := 60, result := "(empty)", killed := false } ∧
    bash { lines := ["x\n"], exitTime := none } = none := by
  exact ⟨by decide, by decide⟩

/-! ### Claim C5 -/

/-- Claim C5: decoding a Style-B response whose candidate list is absent or
empty yields exactly one text block carrying the fixed no-response notice,
and never an unhandled failure. -/
theorem gemini_empty_candidates_decode (r : GeminiResponse)
    (h : r.candidates = none ∨ r.candidates = some []) :
    convert_gemini_response r = .ok [Block.text "No response from Gemini."] := by
  rcases h with h | h <;> simp [convert_gemini_response, h]

/-- Witness for C5 at the concrete absent-candidates response. -/
theorem gemini_empty_candidates_decode_witness :
    convert_gemini_response { candidates := none } =
      .ok [Block.text "No response from Gemini."] :=
  gemini_empty_candidates_decode { candidates := none } (Or.inl rfl)

/-! ### Claim C7 -/

/-- Counterexample to C7 as stated: for the Number kind (the offset
parameter of the read tool) the Style-A tag is integer while the Style-B tag
is NUMBER, which is not the upper-casing of the Style-A tag. -/
theorem schema_casing_counterexample :
    propType Provider.anthropic "number" = "integer" ∧
    propType Provider.gemini "number" = "NUMBER" ∧
    "NUMBER" ≠ tokenUpper "integer" ∧
    (make_schema Provider.anthropic).any
      (fun ts => ts.name = "read" && ts.properties.contains ("offset", "integer")) = true ∧
    (make_schema Provider.gemini).any
      (fun ts => ts.name = "read" && ts.properties.contains ("offset", "NUMBER")) = true := by
  exact ⟨rfl, rfl, by decide, by decide, by decide⟩

/-- Claim C7 amended: every Style-A tag is a lowercase token, and for String
and Boolean parameters the Style-B tag is the upper-casing of the Style-A
tag; for Number parameters, however, Style-A emits integer while Style-B
emits NUMBER — the upper-casing of the declared kind, not of the Style-A
tag. The two Style-A backends share one schema. -/
theorem schema_casing_amended :
    ((make_schema Provider.anthropic).zip (make_schema Provider.gemini)).all
      (fun q =>
        (q.1.properties.zip q.2.properties).all fun pq =>
          pq.1.1 = pq.2.1 &&
          tokenLower pq.1.2 = pq.1.2 &&
          ((pq.1.2 = "string" && pq.2.2 = "STRING") ||
           (pq.1.2 = "boolean" && pq.2.2 = "BOOLEAN") ||
           (pq.1.2 = "integer" && pq.2.2 = "NUMBER"))) = true ∧
    "STRING" = tokenUpper "string" ∧
    "BOOLEAN" = tokenUpper "boolean" ∧
    "NUMBER" = tokenUpper "number" ∧
    "NUMBER" ≠ tokenUpper "integer" ∧
    make_schema Provider.openrouter = make_schema Provider.anthropic := by
  refine ⟨by decide, by decide, by decide, by decide, by decide, by decide⟩

/-! ### Claim C10 -/

/-- Counterexample to C10 as stated: decoding a functionCall part without a
name does not synthesize the defaulted unknown id; the decoder raises a
KeyError subscripting the absent name, so no block is produced at all. -/
theorem gemini_id_counterexample :
    convert_gemini_response ⟨some [⟨some ⟨some [⟨none, some ⟨none, none⟩⟩]⟩⟩]⟩ =
      .error "KeyError: name" := rfl

/-- Shape of successfully decoded Style-B blocks: every block is either a
text block or a tool-use block whose id is the call name with the call
suffix appended. -/
theorem decodeParts_shape : ∀ (ps : List GPart) (bs : List Block),
    decodeParts ps = .ok bs →
    ∀ b ∈ bs, (∃ t, b = Block.text t) ∨
      (∃ n input, b = Block.toolUse (n ++ "_call") n input) := by
  intro ps
  induction ps with
  | nil =>
    intro bs h b hb
    simp only [decodeParts, Except.ok.injEq] at h
    subst h
    simp at hb
  | cons p rest ih =>
    intro bs h b hb
    simp only [decodeParts] at h
    cases hpt : p.text with
    | some t =>
      simp only [hpt] at h
      cases hrec : decodeParts rest with
      | error e => simp [hrec, Except.map] at h
      | ok bs' =>
        simp only [hrec, Except.map, Except.ok.injEq] at h
        subst h
        rcases List.mem_cons.mp hb with hb | hb
        · exact Or.inl ⟨t, hb⟩
        · exact ih bs' hrec b hb
    | none =>
      simp only [hpt] at h
      cases hfc : p.functionCall with
      | some fc =>
        simp only [hfc] at h
        cases hn : fc.name with
        | none => simp [hn] at h
        | some n =>
          simp only [hn] at h
          cases hrec : decodeParts rest with
          | error e => simp [hrec, Except.map] at h
          | ok bs' =>
            simp only [hrec, Except.map, Except.ok.injEq] at h
            subst h
            rcases List.mem_cons.mp hb with hb | hb
            · exact Or.inr ⟨n, fc.args.getD [], hb⟩
            · exact ih bs' hrec b hb
      | none =>
        simp only [hfc] at h
        exact ih bs h b hb

/-- Shape of any successfully decoded Style-B response. -/
theorem gemini_blocks_shape {r : GeminiResponse} {bs : List Block}
    (h : convert_gemini_response r = .ok bs) :
    ∀ b ∈ bs, (∃ t, b = Block.text t) ∨
      (∃ n input, b = Block.toolUse (n ++ "_call") n input) := by
  unfold convert_gemini_response at h
  cases hc : r.candidates with
  | none =>
    simp only [hc, Except.ok.injEq] at h
    subst h
    intro b hb
    rcases List.mem_singleton.mp hb with rfl
    exact Or.inl ⟨_, rfl⟩
  | some cands =>
    simp only [hc] at h
    cases cands with
    | nil =>
      simp only [Except.ok.injEq] at h
      subst h
      intro b hb
      rcases List.mem_singleton.mp hb with rfl
      exact Or.inl ⟨_, rfl⟩
    | cons c _ =>
      cases hcc : c.content with
      | none =>
        simp only [hcc, Except.ok.injEq] at h
        subst h
        intro b hb
        rcases List.mem_singleton.mp hb with rfl
        exact Or.inl ⟨_, rfl⟩
      | some content =>
        simp only [hcc] at h
        exact decodeParts_shape _ _ h

/-- Id format of every decoded tool-use block. -/
theorem gemini_id_format {r : GeminiResponse} {bs : List Block}
    (h : convert_gemini_response r = .ok bs) :
    ∀ id name input, Block.toolUse id name input ∈ bs → id = name ++ "_call" := by
  intro id name input hmem
  rcases gemini_blocks_shape h _ hmem with ⟨t, ht⟩ | ⟨n, inp, hn⟩
  · exact absurd ht (by simp)
  · obtain ⟨h1, h2, h3⟩ := Block.toolUse.inj hn
    rw [h1, h2]

/-- Claim C10 amended: on every successfully decoded Style-B response each
synthesized tool-use id is exactly the call name with the call suffix
appended, so ids are deterministic and two calls with the same name receive
the same id (not unique within a turn); when the name is absent the decode
raises a KeyError instead of producing a defaulted id. -/
theorem gemini_ids_deterministic (r : GeminiResponse) (bs : List Block)
    (h : convert_gemini_response r = .ok bs) :
    (∀ id name input, Block.toolUse id name input ∈ bs → id = name ++ "_call") ∧
    (∀ id₁ id₂ name input₁ input₂, Block.toolUse id₁ name input₁ ∈ bs →
      Block.toolUse id₂ name input₂ ∈ bs → id₁ = id₂) := by
  refine ⟨gemini_id_format h, ?_⟩
  intro id₁ id₂ name input₁ input₂ h1 h2
  rw [gemini_id_format h id₁ name input₁ h1, gemini_id_format h id₂ name input₂ h2]

/-- Witness for C10: two functionCall parts with the same name decode to the
same synthesized id. -/
theorem gemini_ids_deterministic_witness :
    ("grep" ++ "_call" : String) = "grep" ++ "_call" :=
  (gemini_ids_deterministic
    ⟨some [⟨some ⟨some [⟨none, some ⟨some "grep", none⟩⟩,
      ⟨none, some ⟨some "grep", none⟩⟩]⟩⟩]⟩
    [Block.toolUse ("grep" ++ "_call") "grep" [],
     Block.toolUse ("grep" ++ "_call") "grep" []] rfl).1
    ("grep" ++ "_call") "grep" [] (List.mem_cons_self _ _)

/-! ### Claim C9 -/

theorem grepHits_cons (search : String → Bool) (f : GrepFile) (fs : List GrepFile) :
    grepHits search (f :: fs) = grepHitsFile search f ++ grepHits search fs := rfl

theorem grep_aborted_irrelevant (search : String → Bool) (files : List GrepFile) :
    grep search (files.map fun f => { f with aborted := false }) = grep search files := by
  have h : grepHits search (files.map fun f => { f with aborted := false }) =
      grepHits search files := by
    unfold grepHits
    rw [List.map_map]
    rfl
  simp [grep, h]

theorem grepHits_skip_empty (search : String → Bool) : ∀ files : List GrepFile,
    grepHits search (files.filter fun f => !f.lines.isEmpty) = grepHits search files := by
  intro files
  induction files with
  | nil => rfl
  | cons f fs ih =>
    rw [List.filter_cons]
    by_cases hf : (!f.lines.isEmpty) = true
    · rw [if_pos hf, grepHits_cons, grepHits_cons, ih]
    · rw [if_neg hf]
      have hnil : f.lines = [] := by
        cases hl : f.lines
        · rfl
        · exfalso; apply hf; simp [hl]
      have hfile : grepHitsFile search f = [] := by simp [grepHitsFile, hnil]
      rw [ih, grepHits_cons, hfile, List.nil_append]

theorem mem_enumFrom_snd : ∀ (l : List α) (n : Nat) (p : Nat × α),
    p ∈ l.enumFrom n → p.2 ∈ l := by
  intro l
  induction l with
  | nil => intro n p hp; simp [List.enumFrom] at hp
  | cons x xs ih =>
    intro n p hp
    simp only [List.enumFrom] at hp
    rcases List.mem_cons.mp hp with rfl | hp
    · exact List.mem_cons_self _ _
    · exact List.mem_cons_of_mem _ (ih (n + 1) p hp)

theorem grepHitsFile_eq_nil (search : String → Bool) (f : GrepFile) :
    grepHitsFile search f = [] ↔ ∀ l ∈ f.lines, search l = false := by
  unfold grepHitsFile
  suffices h : ∀ (n : Nat) (ls : List String),
      ((ls.enumFrom n).filterMap fun p =>
        if search p.2 then
          some (f.path ++ ":" ++ toString p.1 ++ ":" ++ pyRstrip p.2)
        else none) = [] ↔ ∀ l ∈ ls, search l = false from h 1 f.lines
  intro n ls
  induction ls generalizing n with
  | nil => simp [List.enumFrom]
  | cons x xs ih =>
    simp only [List.enumFrom, List.filterMap_cons]
    cases hsx : search x with
    | true => simp [hsx]
    | false => simp [hsx, ih (n + 1)]

theorem grepHits_eq_nil (search : String → Bool) : ∀ files : List GrepFile,
    grepHits search files = [] ↔
      ∀ f ∈ files, ∀ l ∈ f.lines, search l = false := by
  intro files
  induction files with
  | nil => simp [grepHits]
  | cons f fs ih =>
    rw [grepHits_cons]
    simp only [List.append_eq_nil, List.forall_mem_cons]
    rw [grepHitsFile_eq_nil, ih]

theorem grepHitsFile_mem_colon {search : String → Bool} {f : GrepFile} {h : String}
    (hm : h ∈ grepHitsFile search f) : ':' ∈ h.data := by
  unfold grepHitsFile at hm
  obtain ⟨p, hp, he⟩ := List.mem_filterMap.mp hm
  by_cases hs : search p.2 = true
  · rw [if_pos hs] at he
    have hfmt := Option.some.inj he
    rw [← hfmt]
    have hc : (":" : String).data = [':'] := rfl
    simp [String.data_append, hc]
  · rw [if_neg hs] at he; cases he

theorem grepHits_mem_colon {search : String → Bool} {files : List GrepFile} {h : String}
    (hm : h ∈ grepHits search files) : ':' ∈ h.data := by
  unfold grepHits at hm
  obtain ⟨l, hl, hin⟩ := List.mem_flatten.mp hm
  obtain ⟨f, hf, rfl⟩ := List.mem_map.mp hl
  exact grepHitsFile_mem_colon hin

theorem pyJoin_cons_data (sep h : String) (t : List String) :
    ∃ rest, (pyJoin sep (h :: t)).data = h.data ++ rest := by
  cases t with
  | nil => exact ⟨[], by simp [pyJoin]⟩
  | cons b r =>
    refine ⟨(sep ++ pyJoin sep (b :: r)).data, ?_⟩
    simp [pyJoin, String.data_append, List.append_assoc]

theorem grep_eq_none_iff_hits_nil (search : String → Bool) (files : List GrepFile) :
    grep search files = "none" ↔ grepHits search files = [] := by
  constructor
  · intro h
    cases hh : grepHits search files with
    | nil => rfl
    | cons h0 t =>
      exfalso
      have hmem : h0 ∈ grepHits search files := by
        rw [hh]; exact List.mem_cons_self _ _
      have hcolon : ':' ∈ h0.data := grepHits_mem_colon hmem
      have htake : (grepHits search files).take 50 = h0 :: t.take 49 := by
        rw [hh]; rfl
      obtain ⟨rest, hrest⟩ := pyJoin_cons_data "\n" h0 (t.take 49)
      have hsub : ':' ∈ (pyJoin "\n" (h0 :: t.take 49)).data := by
        rw [hrest]; exact List.mem_append.mpr (Or.inl hcolon)
      by_cases hj : pyJoin "\n" ((grepHits search files).take 50) = ""
      · rw [htake] at hj
        rw [hj] at hsub
        simp at hsub
      · have hgrep : grep search files = pyJoin "\n" ((grepHits search files).take 50) := by
          simp [grep, hj]
        rw [hgrep, htake] at h
        rw [h] at hsub
        have : (("none" : String)).data = ['n', 'o', 'n', 'e'] := rfl
        rw [this] at hsub
        simp at hsub
  · intro h
    simp [grep, h, pyJoin]

theorem grep_none_iff (search : String → Bool) (files : List GrepFile) :
    grep search files = "none" ↔ ∀ f ∈ files, ∀ l ∈ f.lines, search l = false := by
  rw [grep_eq_none_iff_hits_nil, grepHits_eq_nil]

/-- Claim C9: the grep tool returns at most the first 50 matching lines
(each formatted path colon line-number colon right-stripped text), files
that cannot be opened or read contribute nothing and no error (the result
is independent of the aborted flag, and files without readable lines drop
out), and when no line matches the literal string none is returned. -/
theorem grep_matches_claim (search : String → Bool) (files : List GrepFile) :
    (grep search (files.map fun f => { f with aborted := false }) = grep search files) ∧
    (grep search (files.filter fun f => !f.lines.isEmpty) = grep search files) ∧
    (grep search files = "none" ↔ ∀ f ∈ files, ∀ l ∈ f.lines, search l = false) ∧
    (((grepHits search files).take 50).length ≤ 50) ∧
    ((grepHits search files).length ≤ 50 → grep search files ≠ "none" →
      grep search files = pyJoin "\n" (grepHits search files)) ∧
    (∀ h ∈ (grepHits search files).take 50, ∃ f ∈ files, ∃ (n : Nat) (l : String),
      l ∈ f.lines ∧
      search l = true ∧ h = f.path ++ ":" ++ toString n ++ ":" ++ pyRstrip l) := by
  refine ⟨grep_aborted_irrelevant search files, ?_, grep_none_iff search files,
    List.length_take_le _ _, ?_, ?_⟩
  · simp [grep, grepHits_skip_empty]
  · intro hlen hne
    have htake : (grepHits search files).take 50 = grepHits search files :=
      List.take_of_length_le hlen
    by_cases hj : pyJoin "\n" ((grepHits search files).take 50) = ""
    · exfalso; apply hne; simp [grep, hj]
    · rw [htake] at hj
      simp [grep, htake, hj]
  · intro h hm
    have hm' := List.mem_of_mem_take hm
    unfold grepHits at hm'
    obtain ⟨gl, hgl, hin⟩ := List.mem_flatten.mp hm'
    obtain ⟨f, hf, rfl⟩ := List.mem_map.mp hgl
    unfold grepHitsFile at hin
    obtain ⟨p, hp, he⟩ := List.mem_filterMap.mp hin
    by_cases hs : search p.2 = true
    · rw [if_pos hs] at he
      exact ⟨f, hf, p.1, p.2, mem_enumFrom_snd _ _ _ hp, hs,
        (Option.some.inj he).symm⟩
    · rw [if_neg hs] at he; cases he

/-- Witness for C9 at a concrete scan: one matching and one missing line
with fewer than fifty hits reproduce the joined hit list. -/
theorem grep_matches_claim_witness :
    grep (fun l => l == "hit") [⟨"f", ["hit", "miss"], false⟩] =
      pyJoin "\n" (grepHits (fun l => l == "hit") [⟨"f", ["hit", "miss"], false⟩]) :=
  (grep_matches_claim (fun l => l == "hit") [⟨"f", ["hit", "miss"], false⟩]).2.2.2.2.1
    (by decide) (by decide)

/-! ### Claims C4, C6, C8: the loop invariants -/

theorem lastOpt_cons_eq : ∀ (x : Msg) (r : List Msg), ∃ m, lastOpt (x :: r) = some m := by
  intro x r
  induction r generalizing x with
  | nil => exact ⟨x, rfl⟩
  | cons y r' ih =>
    obtain ⟨m, hm⟩ := ih y
    exact ⟨m, by rw [show lastOpt (x :: y :: r') = lastOpt (y :: r') from rfl, hm]⟩

theorem ctxAfter_cons (p : Option Msg) (x : Msg) (xs : List Msg) :
    ctxAfter p (x :: xs) = ctxAfter (some x) xs := by
  cases xs with
  | nil => rfl
  | cons y r =>
    obtain ⟨m, hm⟩ := lastOpt_cons_eq y r
    have h1 : lastOpt (x :: y :: r) = lastOpt (y :: r) := rfl
    simp [ctxAfter, h1, hm]

theorem convInvB_append : ∀ (xs : List Msg) (p : Option Msg) (ys : List Msg),
    convInvB p (xs ++ ys) = (convInvB p xs && convInvB (ctxAfter p xs) ys) := by
  intro xs
  induction xs with
  | nil => intro p ys; simp [convInvB, ctxAfter, lastOpt]
  | cons m xs' ih =>
    intro p ys
    simp only [List.cons_append, convInvB, List.append_eq]
    rw [ih (some m) ys, ctxAfter_cons]
    simp [Bool.and_assoc]

theorem blocksToolUseIds_cons_text (t : String) (rest : List Block) :
    blocksToolUseIds (Block.text t :: rest) = blocksToolUseIds rest := rfl

theorem blocksToolUseIds_cons_toolResult (a c : String) (rest : List Block) :
    blocksToolUseIds (Block.toolResult a c :: rest) = blocksToolUseIds rest := rfl

theorem blocksToolUseIds_cons_toolUse (id0 nm : String) (inp : ArgMap)
    (rest : List Block) :
    blocksToolUseIds (Block.toolUse id0 nm inp :: rest) =
      id0 :: blocksToolUseIds rest := rfl

theorem loopGo_results : ∀ (blocks : List Block) (env : Env) (acc results : List Block)
    (env' : Env), loopGo env acc blocks = StepOut.ok (results, env') →
    ∀ b ∈ results, b ∈ acc ∨ ∃ id cnt, b = Block.toolResult id cnt ∧
      id ∈ blocksToolUseIds blocks := by
  intro blocks
  induction blocks with
  | nil =>
    intro env acc results env' h b hb
    simp only [loopGo, StepOut.ok.injEq, Prod.mk.injEq] at h
    obtain ⟨h1, h2⟩ := h
    rw [← h1] at hb
    exact Or.inl (List.mem_reverse.mp hb)
  | cons blk rest ih =>
    intro env acc results env' h b hb
    cases blk with
    | text t =>
      have h' : loopGo env acc rest = StepOut.ok (results, env') := h
      rcases ih env acc results env' h' b hb with hacc | ⟨id, cnt, hb', hid⟩
      · exact Or.inl hacc
      · exact Or.inr ⟨id, cnt, hb', by rw [blocksToolUseIds_cons_text]; exact hid⟩
    | toolResult a c =>
      have h' : loopGo env acc rest = StepOut.ok (results, env') := h
      rcases ih env acc results env' h' b hb with hacc | ⟨id, cnt, hb', hid⟩
      · exact Or.inl hacc
      · exact Or.inr ⟨id, cnt, hb', by rw [blocksToolUseIds_cons_toolResult]; exact hid⟩
    | toolUse id0 nm inp =>
      simp only [loopGo] at h
      by_cases hi : inp = []
      · rw [if_pos hi] at h; exact absurd h (by simp)
      · rw [if_neg hi] at h
        cases hrt : run_tool env nm inp with
        | none => simp [hrt] at h
        | some pr =>
          obtain ⟨res, env2⟩ := pr
          simp only [hrt] at h
          rcases ih env2 (Block.toolResult id0 res :: acc) results env' h b hb with
            hacc | ⟨id, cnt, hb', hid⟩
          · rcases List.mem_cons.mp hacc with heq | hacc'
            · refine Or.inr ⟨id0, res, heq, ?_⟩
              rw [blocksToolUseIds_cons_toolUse]
              exact List.mem_cons_self _ _
            · exact Or.inl hacc'
          · refine Or.inr ⟨id, cnt, hb', ?_⟩
            rw [blocksToolUseIds_cons_toolUse]
            exact List.mem_cons_of_mem _ hid

theorem strAppend_call_ne_empty (n : String) : n ++ "_call" ≠ "" := by
  intro heq
  have hd := congrArg String.data heq
  rw [String.data_append] at hd
  simp at hd

theorem sourceOk_blocks_wf {src : RespSource} {bs : List Block} (h : sourceOk src bs) :
    (∀ b ∈ bs, isToolResultB b = false) ∧
    (∀ id name input, Block.toolUse id name input ∈ bs → id ≠ "") := by
  cases src with
  | gemini r =>
    constructor
    · intro b hb
      rcases gemini_blocks_shape h b hb with ⟨t, rfl⟩ | ⟨n, inp, rfl⟩ <;> rfl
    · intro id name input hmem
      rw [gemini_id_format h id name input hmem]
      exact strAppend_call_ne_empty name
  | styleA bs0 =>
    obtain ⟨rfl, hwf⟩ := h
    simp only [wfStyleA, List.all_eq_true] at hwf
    constructor
    · intro b hb
      have hw := hwf b hb
      cases b with
      | text t => rfl
      | toolUse a c d => rfl
      | toolResult a c => simp at hw
    · intro id name input hmem
      have hw := hwf _ hmem
      simpa using hw

theorem carriesResult_assistant_false {bs : List Block}
    (h : ∀ b ∈ bs, isToolResultB b = false) :
    carriesResult ⟨Role.assistant, MsgContent.blocks bs⟩ = false := by
  simp only [carriesResult]
  cases hany : bs.any isToolResultB
  · rfl
  · obtain ⟨b, hb, hbt⟩ := List.any_eq_true.mp hany
    rw [h b hb] at hbt
    cases hbt

theorem reachable_convInv : ∀ ms, Reachable ms → convInvB none ms = true := by
  intro ms h
  induction h with
  | nil => rfl
  | user s hr hne ih =>
    rw [convInvB_append]
    simp [ih, convInvB, carriesResult]
  | exchange env env' src blocks results hr hsrc hgo ih =>
    have hwf := sourceOk_blocks_wf hsrc
    have hassist : carriesResult ⟨Role.assistant, MsgContent.blocks blocks⟩ = false :=
      carriesResult_assistant_false hwf.1
    rw [List.append_assoc, convInvB_append]
    simp only [ih, Bool.true_and]
    by_cases hres : results.isEmpty
    · simp [hres, convInvB, hassist]
    · have hids : ∀ i ∈ msgResultIds ⟨Role.user, MsgContent.blocks results⟩,
          i ∈ msgToolUseIds ⟨Role.assistant, MsgContent.blocks blocks⟩ := by
        intro i hi
        simp only [msgResultIds] at hi
        obtain ⟨b, hb, hbe⟩ := List.mem_filterMap.mp hi
        cases b with
        | text t => simp at hbe
        | toolUse a c d => simp at hbe
        | toolResult id cnt =>
          have hieq : i = id := (Option.some.inj hbe).symm
          subst hieq
          rcases loopGo_results blocks env [] results env' hgo _ hb with
            habs | ⟨id', cnt', heq, hid⟩
          · simp at habs
          · obtain ⟨h1, h2⟩ := Block.toolResult.inj heq
            subst h1
            simpa [msgToolUseIds] using hid
      have hok : resultTurnOK (some ⟨Role.assistant, MsgContent.blocks blocks⟩)
          ⟨Role.user, MsgContent.blocks results⟩ = true := by
        simp [resultTurnOK, isBlocksContent]
        exact hids
      rw [if_neg hres]
      simp [convInvB, hassist, hok]

/-- Claim C4: in every conversation the loop produces, each turn carrying
tool-result blocks is a role-user synthesized block turn whose every
referenced id equals a tool-use id of the immediately preceding assistant
turn; and every tool-use block the Style-B decode step produces has a
nonempty id (Style-A responses carry provider-minted blocks passed through
verbatim and are modelled as wire-conformant). -/
theorem conversation_invariant :
    (∀ ms, Reachable ms → convInvB none ms = true) ∧
    (∀ r bs, convert_gemini_response r = .ok bs →
      ∀ id name input, Block.toolUse id name input ∈ bs → id ≠ "") := by
  constructor
  · exact reachable_convInv
  · intro r bs h id name input hmem
    rw [gemini_id_format h id name input hmem]
    exact strAppend_call_ne_empty name

/-- Witness for C4 on a one-turn conversation and a concrete decoded call. -/
theorem conversation_invariant_witness :
    convInvB none [⟨Role.user, MsgContent.str "hi"⟩] = true ∧
    ("ls" ++ "_call" : String) ≠ "" := by
  constructor
  · exact conversation_invariant.1 _ (Reachable.user "hi" Reachable.nil (by decide))
  · exact conversation_invariant.2
      ⟨some [⟨some ⟨some [⟨none, some ⟨some "ls", none⟩⟩]⟩⟩]⟩
      [Block.toolUse ("ls" ++ "_call") "ls" []] rfl ("ls" ++ "_call") "ls" []
      (List.mem_singleton.mpr rfl)

theorem listPrefixOf_append [DecidableEq α] : ∀ l t : List α,
    listPrefixOf l (l ++ t) = true := by
  intro l t
  induction l with
  | nil => rfl
  | cons a l' ih => simp [listPrefixOf, ih]

theorem agenticLoop_failed_extends :
    ∀ (script : List (Except String (List Block))) (env : Env) (ms : List Msg)
      (e : String) (ms' : List Msg) (env' : Env),
      agenticLoop env ms script = LoopOut.failed e ms' env' →
      ms' = ms ++ ms'.drop ms.length ∧ isToolExchanges (ms'.drop ms.length) = true := by
  intro script
  induction script with
  | nil =>
    intro env ms e ms' env' h
    simp [agenticLoop] at h
  | cons r rest ih =>
    intro env ms e ms' env' h
    cases r with
    | error e0 =>
      simp only [agenticLoop, LoopOut.failed.injEq] at h
      obtain ⟨h1, h2, h3⟩ := h
      subst h2
      simp [List.drop_length, isToolExchanges]
    | ok blocks =>
      simp only [agenticLoop] at h
      cases hgo : loopGo env [] blocks with
      | hang => simp [hgo] at h
      | raise e0 =>
        simp only [hgo, LoopOut.failed.injEq] at h
        obtain ⟨h1, h2, h3⟩ := h
        subst h2
        simp [List.drop_length, isToolExchanges]
      | ok pr =>
        obtain ⟨results, env2⟩ := pr
        simp only [hgo] at h
        by_cases hres : results.isEmpty
        · simp [hres] at h
        · rw [if_neg hres] at h
          obtain ⟨hext, hexch⟩ := ih env2
            ((ms ++ [⟨Role.assistant, MsgContent.blocks blocks⟩]) ++
              [⟨Role.user, MsgContent.blocks results⟩]) e ms' env' h
          generalize hT : ms'.drop (((ms ++ [(⟨Role.assistant,
            MsgContent.blocks blocks⟩ : Msg)]) ++
            [(⟨Role.user, MsgContent.blocks results⟩ : Msg)]).length) = T at hext hexch
          have hext' : ms' = (ms ++ ([(⟨Role.assistant, MsgContent.blocks blocks⟩ : Msg)] ++
              [(⟨Role.user, MsgContent.blocks results⟩ : Msg)])) ++ T := by
            rw [hext]; simp [List.append_assoc]
          have h1 : ms'.drop ms.length =
              ([(⟨Role.assistant, MsgContent.blocks blocks⟩ : Msg)] ++
                [(⟨Role.user, MsgContent.blocks results⟩ : Msg)]) ++ T := by
            rw [hext', List.append_assoc, List.drop_left]
          have hresf : results.isEmpty = false := Bool.eq_false_iff.mpr hres
          refine ⟨?_, ?_⟩
          · rw [h1, hext']
            simp [List.append_assoc]
          · rw [h1]
            have hstep : isToolExchanges
                (([(⟨Role.assistant, MsgContent.blocks blocks⟩ : Msg)] ++
                  [(⟨Role.user, MsgContent.blocks results⟩ : Msg)]) ++ T) =
                (!results.isEmpty && isToolExchanges T) := rfl
            rw [hstep, hresf, hexch]
            rfl

/-- Claim C6: a transport failure surfaces to the outer REPL, which prints a
top-level error notice and returns to awaiting input, and the conversation
is exactly as it was before the failed call: an error response leaves the
message list untouched, any turns appended by earlier completed iterations
form whole tool exchanges, and the user turn of the round stays a prefix of
the resulting conversation, with no assistant turn for the failed call. -/
theorem transport_failure_preserves_conversation :
    (∀ (env : Env) (ms : List Msg) (e : String) rest,
      agenticLoop env ms (Except.error e :: rest) = LoopOut.failed e ms env) ∧
    (∀ script (env : Env) (ms : List Msg) (e : String) ms' env',
      agenticLoop env ms script = LoopOut.failed e ms' env' →
      ms' = ms ++ ms'.drop ms.length ∧ isToolExchanges (ms'.drop ms.length) = true) ∧
    (∀ (env : Env) (ms : List Msg) input script ms' p,
      replTurn env ms input script = some (ms', some p) →
      pyStartsWith "Error: " p = true ∧
      listPrefixOf (ms ++ [⟨Role.user, MsgContent.str input⟩]) ms' = true) := by
  refine ⟨fun env ms e rest => rfl, agenticLoop_failed_extends, ?_⟩
  intro env ms input script ms' p h
  unfold replTurn at h
  cases hloop : agenticLoop env (ms ++ [⟨Role.user, MsgContent.str input⟩]) script with
  | hang => simp [hloop] at h
  | outOfScript a b => simp [hloop] at h
  | done a b => simp [hloop] at h
  | failed e a b =>
    simp only [hloop, Option.some.injEq, Prod.mk.injEq] at h
    obtain ⟨h1, h2⟩ := h
    have hp : p = "Error: " ++ e := h2.symm
    subst hp
    refine ⟨pyStartsWith_append _ _, ?_⟩
    obtain ⟨hext, _⟩ := agenticLoop_failed_extends script env _ e a b hloop
    rw [← h1, hext]
    exact listPrefixOf_append _ _

/-- Witness for C6: one scripted transport failure right after the user
turn leaves exactly that turn recorded and prints the error notice. -/
theorem transport_failure_witness :
    pyStartsWith "Error: " ("Error: " ++ "boom") = true ∧
    listPrefixOf ([] ++ [⟨Role.user, MsgContent.str "hi"⟩])
      [(⟨Role.user, MsgContent.str "hi"⟩ : Msg)] = true :=
  transport_failure_preserves_conversation.2.2 cEnv [] "hi" [Except.error "boom"]
    [⟨Role.user, MsgContent.str "hi"⟩] ("Error: " ++ "boom") rfl

/-- Counterexample to C8 as stated: when the provider returns an empty
content list the loop appends the assistant turn unconditionally, so a turn
with an empty content-block list is added to the conversation. -/
theorem empty_assistant_turn_appended :
    Reachable [⟨Role.user, MsgContent.str "hi"⟩,
      ⟨Role.assistant, MsgContent.blocks []⟩] ∧
    contentNonemptyB ⟨Role.assistant, MsgContent.blocks []⟩ = false := by
  constructor
  · have h := Reachable.exchange cEnv cEnv (RespSource.styleA []) [] []
      (Reachable.user "hi" Reachable.nil (by decide)) ⟨rfl, rfl⟩ rfl
    simpa using h
  · rfl

/-- Claim C8 amended: typed user turns and synthesized tool-result turns are
always nonempty (empty input is never appended and a results turn is
appended only when at least one result was collected), and the Style-B
request encoder drops empty-content turns when serializing; but the
assistant turn is appended unconditionally, so an assistant turn with an
empty block list is recorded when the provider returns no blocks. -/
theorem appended_user_turns_nonempty :
    (∀ ms, Reachable ms → ∀ m ∈ ms, m.role = Role.user → contentNonemptyB m = true) ∧
    (∀ msgs sys, ∀ c ∈ convert_messages_to_gemini msgs sys, c.parts ≠ []) := by
  constructor
  · intro ms h
    induction h with
    | nil => intro m hm; simp at hm
    | user s hr hne ih =>
      intro m hm hrole
      rcases List.mem_append.mp hm with hm' | hm'
      · exact ih m hm' hrole
      · rcases List.mem_singleton.mp hm' with rfl
        simpa [contentNonemptyB] using hne
    | exchange env env' src blocks results hr hsrc hgo ih =>
      intro m hm hrole
      rcases List.mem_append.mp hm with hm' | hm'
      · rcases List.mem_append.mp hm' with hm'' | hm''
        · exact ih m hm'' hrole
        · rcases List.mem_singleton.mp hm'' with rfl
          simp at hrole
      · by_cases hres : results.isEmpty
        · simp [hres] at hm'
        · rw [if_neg hres] at hm'
          rcases List.mem_singleton.mp hm' with rfl
          simp only [contentNonemptyB]
          simp [Bool.eq_false_iff.mpr hres]
  · intro msgs sys c hc
    obtain ⟨msg, hmsg, hf⟩ := List.mem_filterMap.mp hc
    cases hcon : msg.content with
    | str s =>
      simp only [hcon] at hf
      have hceq := Option.some.inj hf
      rw [← hceq]
      simp
    | blocks items =>
      simp only [hcon] at hf
      by_cases hp : (items.map blockToGeminiPart).isEmpty
      · simp [hp] at hf
      · rw [if_neg hp] at hf
        have hceq := Option.some.inj hf
        rw [← hceq]
        simpa using Bool.eq_false_iff.mpr hp

/-- Witness for C8 amended: a typed user turn is nonempty. -/
theorem appended_user_turns_nonempty_witness :
    contentNonemptyB ⟨Role.user, MsgContent.str "hi"⟩ = true :=
  appended_user_turns_nonempty.1 _ (Reachable.user "hi" Reachable.nil (by decide))
    ⟨Role.user, MsgContent.str "hi"⟩ (by simp) rfl

end Nanocode
